import Mathlib

/-!
Shallow embedding of `fileformat.py`: a binary file reader (`Parser`) and
writer (`Builder`) with integer/float/string codecs and a format-string
interpreter (`read_fmt`).

Modelling conventions:
* File contents are lists of byte values (`Nat`, each below 256); the
  reader state is the content plus a cursor, the writer state is the
  bytes written so far (the writer only ever appends in the claims at
  issue, so `seek` is not modelled).
* A Python `float` is represented by the 64-bit pattern of its IEEE-754
  double encoding; `struct.pack`/`struct.unpack` become bit-level
  conversions on those patterns.
* Python exceptions become the `Err` type; reader operations return
  `Except Err α × ParserState` because a raised exception leaves the
  already-advanced file cursor in place.
* The `struct` byte-order prefix is `"<"` for `"little"`, `">"` for
  `"big"` and `""` (native) for anything else; the reference platform is
  little-endian, so native order is modelled as little-endian.
-/

namespace FileFormat

/-- Errors raised by the Python code: `ValueError("Invalid byteorder.")`,
`ValueError("Invalid format string.")`, `ValueError` from `int()` on a bad
literal, `struct.error` on a buffer-size mismatch, `OverflowError` from
`int.to_bytes` or `struct.pack`, `UnicodeDecodeError` from `bytes.decode`,
and `IndexError` from indexing an empty string. -/
inductive Err where
  | invalidByteorder
  | invalidFormat
  | invalidLiteral
  | structError
  | overflowError
  | unicodeError
  | indexError
  deriving DecidableEq

/-- One decoded field of a `read_fmt` result tuple: raw bytes (`b`),
an integer (`i`/`u`), a float given by its double bit pattern (`f`/`d`),
or a string (`s`). -/
inductive Value where
  | bytes (bs : List Nat)
  | int (i : Int)
  | float (bits : Nat)
  | str (t : String)
  deriving DecidableEq

/-- State of a `Parser`: the file content and the cursor position. -/
structure ParserState where
  content : List Nat
  pos : Nat
  deriving DecidableEq

/-- State of a `Builder`: the bytes written so far. -/
structure BuilderState where
  file : List Nat
  deriving DecidableEq

instance {ε α : Type} [DecidableEq ε] [DecidableEq α] : DecidableEq (Except ε α) := fun x y =>
  match x, y with
  | .ok a, .ok b =>
    match decEq a b with
    | isTrue h => isTrue (h ▸ rfl)
    | isFalse h => isFalse (fun hc => h (Except.ok.inj hc))
  | .error a, .error b =>
    match decEq a b with
    | isTrue h => isTrue (h ▸ rfl)
    | isFalse h => isFalse (fun hc => h (Except.error.inj hc))
  | .ok _, .error _ => isFalse (fun hc => Except.noConfusion hc)
  | .error _, .ok _ => isFalse (fun hc => Except.noConfusion hc)

/-- Value of a little-endian byte list (`int.from_bytes(bs, "little")`). -/
def bytesToNat : List Nat → Nat
  | [] => 0
  | b :: rest => b + 256 * bytesToNat rest

/-- The `size` low-order bytes of `n`, least significant first
(`n.to_bytes(size, "little")` on an in-range value). -/
def natToBytesLE : Nat → Nat → List Nat
  | _, 0 => []
  | n, size + 1 => n % 256 :: natToBytesLE (n / 256) size

/-- Reorder a little-endian byte list for the requested byte order:
`"big"` reverses, `"little"` and the native fallback keep the order. -/
def orientBytes (byteorder : String) (bs : List Nat) : List Nat :=
  if byteorder = "big" then bs.reverse else bs

/-- Fuel-indexed bit length: `bitlenGo fuel n` is the number of binary
digits of `n`, correct whenever `n < 2 ^ fuel`. -/
def bitlenGo : Nat → Nat → Nat
  | 0, _ => 0
  | fuel + 1, n => if n = 0 then 0 else bitlenGo fuel (n / 2) + 1

/-- Bit length of a natural number below `2 ^ 64`. -/
def bitlen (n : Nat) : Nat := bitlenGo 64 n

/-- Shift `n` right by `k` bits, rounding to nearest with ties to even
(the IEEE-754 default rounding used by the platform float conversion). -/
def rneShift (n k : Nat) : Nat :=
  if k = 0 then n
  else
    let q := n / 2 ^ k
    let r := n % 2 ^ k
    if 2 ^ (k - 1) < r then q + 1
    else if r < 2 ^ (k - 1) then q
    else if q % 2 = 1 then q + 1 else q

/-- Narrow an IEEE-754 double bit pattern to the nearest single-precision
pattern, as the C cast to `float` performed by `struct.pack` with format
`f` does.  A finite double whose rounded magnitude leaves single range
makes CPython raise `OverflowError` ("float too large to pack with f
format"); NaN payload narrowing is platform-defined and modelled by
truncation with the quiet bit forced. -/
def doubleToSingleBits (w : Nat) : Except Err Nat :=
  let s := w / 2 ^ 63 % 2
  let E := w / 2 ^ 52 % 2 ^ 11
  let M := w % 2 ^ 52
  if E = 2047 then
    .ok (s * 2 ^ 31 + 255 * 2 ^ 23 +
      (if M = 0 then 0 else if M / 2 ^ 29 = 0 then 2 ^ 22 else M / 2 ^ 29))
  else
    let sig := if E = 0 then M else 2 ^ 52 + M
    if sig = 0 then .ok (s * 2 ^ 31)
    else
      let E1 := max E 1
      let L := bitlen sig
      if 950 ≤ E1 + L then
        let m0 := if L ≤ 24 then sig * 2 ^ (24 - L) else rneShift sig (L - 24)
        if m0 = 2 ^ 24 then
          if 255 ≤ E1 + L - 948 then .error .overflowError
          else .ok (s * 2 ^ 31 + (E1 + L - 948) * 2 ^ 23)
        else
          if 255 ≤ E1 + L - 949 then .error .overflowError
          else .ok (s * 2 ^ 31 + (E1 + L - 949) * 2 ^ 23 + (m0 - 2 ^ 23))
      else
        let m0 := if 926 ≤ E1 then sig * 2 ^ (E1 - 926) else rneShift sig (926 - E1)
        if 2 ^ 23 ≤ m0 then .ok (s * 2 ^ 31 + 2 ^ 23)
        else .ok (s * 2 ^ 31 + m0)

/-- Widen an IEEE-754 single bit pattern to the double pattern denoting
the same real value, as `struct.unpack` with format `f` does when it
produces the resulting Python float. -/
def singleToDoubleBits (w : Nat) : Nat :=
  let s := w / 2 ^ 31 % 2
  let e := w / 2 ^ 23 % 2 ^ 8
  let f := w % 2 ^ 23
  if e = 0 then
    if f = 0 then s * 2 ^ 63
    else
      let k := bitlen f
      s * 2 ^ 63 + (k + 873) * 2 ^ 52 + (f - 2 ^ (k - 1)) * 2 ^ (53 - k)
  else if e = 255 then s * 2 ^ 63 + 2047 * 2 ^ 52 + f * 2 ^ 29
  else s * 2 ^ 63 + (e + 896) * 2 ^ 52 + f * 2 ^ 29

/-- `float_from_bytes` (fileformat.py lines 9-21): unpack `data` with
`struct` format `d` (8 bytes) or `f` (4 bytes) in the requested byte
order; `struct.unpack` raises `struct.error` when the buffer length does
not match the format size. -/
def float_from_bytes (data : List Nat) (byteorder : String) (double : Bool) : Except Err Nat :=
  if double then
    if data.length = 8 then .ok (bytesToNat (orientBytes byteorder data))
    else .error .structError
  else
    if data.length = 4 then .ok (singleToDoubleBits (bytesToNat (orientBytes byteorder data)))
    else .error .structError

/-- `float_to_bytes` (fileformat.py lines 24-36): pack `value` with
`struct` format `d` (8 bytes) or `f` (4 bytes, after narrowing to single
precision) in the requested byte order. -/
def float_to_bytes (value : Nat) (byteorder : String) (double : Bool) : Except Err (List Nat) :=
  if double then .ok (orientBytes byteorder (natToBytesLE value 8))
  else
    match doubleToSingleBits value with
    | .ok w => .ok (orientBytes byteorder (natToBytesLE w 4))
    | .error err => .error err

/-- Whether `v.to_bytes(size, byteorder, signed=signed)` accepts `v`:
two's-complement range for signed, `[0, 2 ^ (8 * size))` for unsigned. -/
def int_representable (v : Int) (size : Nat) (signed : Bool) : Bool :=
  if signed then
    if size = 0 then v == 0
    else decide (-((2 : Int) ^ (8 * size - 1)) ≤ v) && decide (v < (2 : Int) ^ (8 * size - 1))
  else decide (0 ≤ v) && decide (v < (2 : Int) ^ (8 * size))

/-- `v.to_bytes(size, endian, signed=signed)` for an already validated
byte order: `OverflowError` when `v` is out of range, otherwise the
two's-complement (resp. unsigned) encoding in the requested order. -/
def int_to_bytes (v : Int) (size : Nat) (endian : String) (signed : Bool) : Except Err (List Nat) :=
  if int_representable v size signed then
    .ok (orientBytes endian (natToBytesLE (if v < 0 then v + 2 ^ (8 * size) else v).toNat size))
  else .error .overflowError

/-- `int.from_bytes(bs, endian, signed=signed)` for an already validated
byte order; any buffer length is accepted, the empty buffer giving `0`. -/
def int_from_bytes (bs : List Nat) (endian : String) (signed : Bool) : Int :=
  let n := bytesToNat (orientBytes endian bs)
  if signed ∧ 2 ^ (8 * bs.length - 1) ≤ n then (n : Int) - 2 ^ (8 * bs.length) else (n : Int)

/-- Strict UTF-8 decoding of a byte list into code points, as
`bytes.decode("utf-8")`: rejects overlong forms, surrogates, code points
above `0x10FFFF`, and truncated sequences.  The fuel argument only bounds
the recursion; `utf8Decode` supplies enough for the whole input. -/
def utf8DecodeGo : Nat → List Nat → Option (List Char)
  | _, [] => some []
  | 0, _ :: _ => none
  | fuel + 1, b :: rest =>
    if b ≤ 0x7F then
      (utf8DecodeGo fuel rest).map (fun cs => Char.ofNat b :: cs)
    else if b < 0xC2 then none
    else if b ≤ 0xDF then
      match rest with
      | b2 :: rest2 =>
        if 0x80 ≤ b2 ∧ b2 ≤ 0xBF then
          (utf8DecodeGo fuel rest2).map
            (fun cs => Char.ofNat ((b - 0xC0) * 0x40 + (b2 - 0x80)) :: cs)
        else none
      | [] => none
    else if b ≤ 0xEF then
      match rest with
      | b2 :: b3 :: rest3 =>
        if ((if b = 0xE0 then 0xA0 else 0x80) ≤ b2 ∧ b2 ≤ (if b = 0xED then 0x9F else 0xBF)) ∧
            0x80 ≤ b3 ∧ b3 ≤ 0xBF then
          (utf8DecodeGo fuel rest3).map
            (fun cs => Char.ofNat ((b - 0xE0) * 0x1000 + (b2 - 0x80) * 0x40 + (b3 - 0x80)) :: cs)
        else none
      | _ => none
    else if b ≤ 0xF4 then
      match rest with
      | b2 :: b3 :: b4 :: rest4 =>
        if ((if b = 0xF0 then 0x90 else 0x80) ≤ b2 ∧ b2 ≤ (if b = 0xF4 then 0x8F else 0xBF)) ∧
            (0x80 ≤ b3 ∧ b3 ≤ 0xBF) ∧ 0x80 ≤ b4 ∧ b4 ≤ 0xBF then
          (utf8DecodeGo fuel rest4).map
            (fun cs => Char.ofNat
              ((b - 0xF0) * 0x40000 + (b2 - 0x80) * 0x1000 + (b3 - 0x80) * 0x40 + (b4 - 0x80)) :: cs)
        else none
      | _ => none
    else none

/-- `bytes.decode("utf-8")` on a byte list, `none` on a decode error. -/
def utf8Decode (bs : List Nat) : Option String :=
  (utf8DecodeGo bs.length bs).map (fun cs => String.mk cs)

/-- `Parser.read` (fileformat.py line 72): `self.file.read(size)` returns
up to `size` bytes from the cursor (`none` reads to the end), advancing
the cursor by the number of bytes actually returned. -/
def Parser.read (size : Option Nat) (s : ParserState) : List Nat × ParserState :=
  match size with
  | none => (s.content.drop s.pos, { s with pos := s.content.length })
  | some n =>
    let bs := (s.content.drop s.pos).take n
    (bs, { s with pos := s.pos + bs.length })

/-- `Parser.read_int` (fileformat.py lines 84-96): validate the byte
order, then read `size` bytes and interpret them with
`int.from_bytes`. -/
def Parser.read_int (size : Nat) (signed : Bool) (endian : String) (s : ParserState) :
    Except Err Int × ParserState :=
  if endian = "little" ∨ endian = "big" then
    let (bs, s1) := Parser.read (some size) s
    (.ok (int_from_bytes bs endian signed), s1)
  else (.error .invalidByteorder, s)

/-- `Parser.read_float` (fileformat.py lines 98-106): always read 4
bytes, then decode them with `float_from_bytes` under the given `double`
flag (no byte-order validation happens on this path). -/
def Parser.read_float (double : Bool) (endian : String) (s : ParserState) :
    Except Err Nat × ParserState :=
  let (bs, s1) := Parser.read (some 4) s
  (float_from_bytes bs endian double, s1)

/-- `Parser.read_str` (fileformat.py lines 108-117): read `size` bytes
and decode them; every call site uses the default `encoding="utf-8"`, so
the encoding is fixed to UTF-8 here. -/
def Parser.read_str (size : Nat) (s : ParserState) : Except Err String × ParserState :=
  let (bs, s1) := Parser.read (some size) s
  (match utf8Decode bs with
   | some t => .ok t
   | none => .error .unicodeError, s1)

/-- Python's `data in src` on byte strings: whether `data` occurs in
`src` as a contiguous subsequence. -/
def containsSeq (data : List Nat) : List Nat → Bool
  | [] => data.isEmpty
  | b :: rest => data.isPrefixOf (b :: rest) || containsSeq data rest

/-- Loop of `Parser.read_until` (fileformat.py lines 127-130): while the
delimiter is not a contiguous substring of the accumulator, read one more
byte.  The loop is indexed by fuel; `none` means it has not produced a
result within `fuel` iterations (the Python loop has no bound at all). -/
def Parser.read_until_go (data : List Nat) : Nat → List Nat → ParserState →
    Option (List Nat × ParserState)
  | 0, src, s => if containsSeq data src then some (src, s) else none
  | fuel + 1, src, s =>
    if containsSeq data src then some (src, s)
    else
      let (b, s1) := Parser.read (some 1) s
      Parser.read_until_go data fuel (src ++ b) s1

/-- `Parser.read_until` (fileformat.py lines 119-130): read
`len(data)` bytes, then keep reading single bytes until the accumulated
buffer contains `data`. -/
def Parser.read_until (data : List Nat) (fuel : Nat) (s : ParserState) :
    Option (List Nat × ParserState) :=
  let (src, s1) := Parser.read (some data.length) s
  Parser.read_until_go data fuel src s1

/-- Decimal digit accumulator for `int(...)`. -/
def parseDecimalGo : List Char → Nat → Option Nat
  | [], acc => some acc
  | c :: rest, acc =>
    if c.isDigit then parseDecimalGo rest (acc * 10 + (c.toNat - 48)) else none

/-- `int(cs)` on the digits of a format token (fileformat.py lines
154-164); only plain nonnegative decimal literals appear there, anything
else raises `ValueError`. -/
def parseDecimal (cs : List Char) : Option Nat :=
  if cs = [] then none else parseDecimalGo cs 0

/-- `int(arg[1:]) if len(arg) > 1 else 1`: the size of a format token,
defaulting to 1 when no suffix is present. -/
def tokenSize (rest : List Char) : Except Err Nat :=
  if rest = [] then .ok 1
  else
    match parseDecimal rest with
    | some n => .ok n
    | none => .error .invalidLiteral

/-- One token dispatch of `Parser.read_fmt` (fileformat.py lines
152-166): branch on the leading character `b`/`i`/`u`/`f`/`d`/`s`, any
other leading character raising `ValueError("Invalid format string.")`.
The `f` and `d` branches ignore any size suffix. -/
def Parser.read_fmt_tok (arg : List Char) (endian : String) (s : ParserState) :
    Except Err Value × ParserState :=
  match arg with
  | [] => (.error .indexError, s)
  | c :: rest =>
    if c = 'b' then
      match tokenSize rest with
      | .ok n =>
        let (bs, s1) := Parser.read (some n) s
        (.ok (Value.bytes bs), s1)
      | .error err => (.error err, s)
    else if c = 'i' then
      match tokenSize rest with
      | .ok n =>
        let (r, s1) := Parser.read_int n true endian s
        (r.map Value.int, s1)
      | .error err => (.error err, s)
    else if c = 'u' then
      match tokenSize rest with
      | .ok n =>
        let (r, s1) := Parser.read_int n false endian s
        (r.map Value.int, s1)
      | .error err => (.error err, s)
    else if c = 'f' then
      let (r, s1) := Parser.read_float false endian s
      (r.map Value.float, s1)
    else if c = 'd' then
      let (r, s1) := Parser.read_float true endian s
      (r.map Value.float, s1)
    else if c = 's' then
      match tokenSize rest with
      | .ok n =>
        let (r, s1) := Parser.read_str n s
        (r.map Value.str, s1)
      | .error err => (.error err, s)
    else (.error .invalidFormat, s)

/-- Token loop of `Parser.read_fmt`: process the tokens left to right,
accumulating the decoded values; a raised error stops the loop with the
cursor wherever it stopped. -/
def Parser.read_fmt_go (endian : String) : List (List Char) → ParserState →
    Except Err (List Value) × ParserState
  | [], s => (.ok [], s)
  | tok :: rest, s =>
    match Parser.read_fmt_tok tok endian s with
    | (.error err, s1) => (.error err, s1)
    | (.ok v, s1) =>
      match Parser.read_fmt_go endian rest s1 with
      | (.error err, s2) => (.error err, s2)
      | (.ok vs, s2) => (.ok (v :: vs), s2)

/-- `fmt.split()`: split on runs of whitespace, discarding empties. -/
def splitWsGo : List Char → List Char → List (List Char)
  | [], acc => if acc = [] then [] else [acc.reverse]
  | c :: rest, acc =>
    if c.isWhitespace then
      if acc = [] then splitWsGo rest [] else acc.reverse :: splitWsGo rest []
    else splitWsGo rest (c :: acc)

/-- `fmt.split()` on a format string. -/
def splitWs (cs : List Char) : List (List Char) := splitWsGo cs []

/-- `Parser.read_fmt` (fileformat.py lines 132-167): split the format
string on whitespace and process the tokens sequentially. -/
def Parser.read_fmt (fmt : String) (endian : String) (s : ParserState) :
    Except Err (List Value) × ParserState :=
  Parser.read_fmt_go endian (splitWs fmt.toList) s

/-- `Builder.write` (fileformat.py lines 223-228): append raw bytes. -/
def Builder.write (data : List Nat) (b : BuilderState) : BuilderState :=
  ⟨b.file ++ data⟩

/-- `Builder.write_int` (fileformat.py lines 230-242): validate the byte
order, then write `data.to_bytes(size, byteorder=endian, signed=signed)`.
An error is raised before anything is written. -/
def Builder.write_int (data : Int) (size : Nat) (signed : Bool) (endian : String)
    (b : BuilderState) : Except Err BuilderState :=
  if endian = "little" ∨ endian = "big" then
    (int_to_bytes data size endian signed).map (fun bs => Builder.write bs b)
  else .error .invalidByteorder

/-- `Builder.write_float` (fileformat.py lines 244-252): write
`float_to_bytes(data, endian)` — the `double` parameter is left at its
default `False`, and no byte-order validation happens on this path. -/
def Builder.write_float (data : Nat) (endian : String) (b : BuilderState) :
    Except Err BuilderState :=
  (float_to_bytes data endian false).map (fun bs => Builder.write bs b)

/-! ## Helper lemmas -/

theorem natToBytesLE_length (size : Nat) : ∀ n, (natToBytesLE n size).length = size := by
  induction size with
  | zero => intro n; rfl
  | succ k ih => intro n; simp [natToBytesLE, ih]

theorem bytesToNat_natToBytesLE (size : Nat) :
    ∀ n, bytesToNat (natToBytesLE n size) = n % 2 ^ (8 * size) := by
  induction size with
  | zero => intro n; simp [natToBytesLE, bytesToNat, Nat.mod_one]
  | succ k ih =>
    intro n
    have hpow : 2 ^ (8 * (k + 1)) = 256 * 2 ^ (8 * k) := by ring
    rw [natToBytesLE, bytesToNat, ih, hpow, Nat.mod_mul]

theorem orientBytes_length (byteorder : String) (bs : List Nat) :
    (orientBytes byteorder bs).length = bs.length := by
  unfold orientBytes; split <;> simp

theorem orientBytes_orientBytes (byteorder : String) (bs : List Nat) :
    orientBytes byteorder (orientBytes byteorder bs) = bs := by
  unfold orientBytes; split <;> simp

/-! ## C4: concrete `read_fmt` behavior -/

/-- C4: on a file whose next bytes are `[0x01, 0x00, 0xFF, 0x61, 0x62,
0x63]`, `read_fmt "u2 i1 s3"` with little endian returns `(1, -1, "abc")`,
the tokens consuming the bytes sequentially; and on `[0x01, 0xFF, 0x61]`
the sizeless tokens of `read_fmt "u i s"` each default to one byte,
returning `(1, -1, "a")`. -/
theorem read_fmt_example_u2_i1_s3 :
    Parser.read_fmt "u2 i1 s3" "little" ⟨[0x01, 0x00, 0xFF, 0x61, 0x62, 0x63], 0⟩ =
      (.ok [.int 1, .int (-1), .str "abc"], ⟨[0x01, 0x00, 0xFF, 0x61, 0x62, 0x63], 6⟩) ∧
    Parser.read_fmt "u i s" "little" ⟨[0x01, 0xFF, 0x61], 0⟩ =
      (.ok [.int 1, .int (-1), .str "a"], ⟨[0x01, 0xFF, 0x61], 3⟩) := by
  constructor <;> decide

/-! ## Counterexample evaluations -/

/-- C1 counterexample: `write_float` on the double pattern of `1.0`
writes the 4-byte single-precision encoding `[0x00, 0x00, 0x80, 0x3F]`,
not the 8-byte double-precision encoding the claim describes. -/
theorem write_float_counterexample :
    Builder.write_float 0x3FF0000000000000 "little" ⟨[]⟩ = .ok ⟨[0x00, 0x00, 0x80, 0x3F]⟩ ∧
    ([0x00, 0x00, 0x80, 0x3F] : List Nat).length ≠ 8 := by
  constructor <;> decide

/-- C2 counterexample: with `double = true` and eight zero bytes
available, `read_float` does not return a decoded value at all — the four
bytes it reads cannot be unpacked as an 8-byte double, so it fails with a
`struct.error` (after consuming the four bytes). -/
theorem read_float_double_counterexample :
    Parser.read_float true "little" ⟨[0, 0, 0, 0, 0, 0, 0, 0], 0⟩ =
      (.error .structError, ⟨[0, 0, 0, 0, 0, 0, 0, 0], 4⟩) := by
  decide

/-- C3 counterexample: `read_float` with the unrecognized endian
`"middle"` raises nothing: it succeeds, reading 4 bytes from the file
(native byte-order fallback), instead of failing with `InvalidArgument`
before touching the file. -/
theorem read_float_accepts_bad_endian :
    Parser.read_float false "middle" ⟨[0, 0, 0, 0], 0⟩ = (.ok 0, ⟨[0, 0, 0, 0], 4⟩) := by
  decide

/-- C5 counterexample: the format `"f x"` contains the offending token
`"x"`, but on an empty file the earlier `f` token fails first with a
`struct.error`, so `read_fmt` does not fail with `InvalidFormat`. -/
theorem read_fmt_prior_error_counterexample :
    (Parser.read_fmt "f x" "little" ⟨[], 0⟩).1 = .error .structError ∧
    Err.structError ≠ Err.invalidFormat := by
  constructor <;> decide

/-- C9 counterexample: `2 ^ 128` is a finite double (pattern
`1151 * 2 ^ 52`), but packing it at single precision raises
`OverflowError` instead of returning a rounded value, so the round trip
with `double = false` returns nothing for it. -/
theorem float_roundtrip_overflow_counterexample :
    float_to_bytes (1151 * 2 ^ 52) "little" false = .error .overflowError ∧
    (1151 * 2 ^ 52) / 2 ^ 52 % 2 ^ 11 ≠ 2047 := by
  constructor <;> decide

/-! ## C1: `write_float` writes single precision -/

theorem doubleToSingleBits_error (v : Nat) (err : Err)
    (h : doubleToSingleBits v = .error err) : err = .overflowError := by
  simp only [doubleToSingleBits] at h
  split_ifs at h <;> simp_all

/-- C1 (amended): `write_float` encodes its argument at IEEE-754
**single** precision — whenever `float_to_bytes v e false` succeeds,
`write_float` appends exactly those bytes, and there are 4 of them, not
8.  (A finite value outside single range instead raises the packing
`OverflowError`.) -/
theorem write_float_single_four_bytes (v : Nat) (e : String) (b : BuilderState) (bs : List Nat)
    (h : float_to_bytes v e false = .ok bs) :
    Builder.write_float v e b = .ok ⟨b.file ++ bs⟩ ∧ bs.length = 4 := by
  refine ⟨by simp [Builder.write_float, h, Builder.write, Except.map], ?_⟩
  unfold float_to_bytes at h
  simp only [Bool.false_eq_true, if_false] at h
  cases hd : doubleToSingleBits v with
  | ok w =>
    rw [hd] at h
    cases h
    rw [orientBytes_length, natToBytesLE_length]
  | error err => rw [hd] at h; cases h

theorem write_float_single_four_bytes_witness :
    Builder.write_float 0x3FF0000000000000 "big" ⟨[2]⟩ = .ok ⟨[2, 0x3F, 0x80, 0x00, 0x00]⟩ ∧
    ([0x3F, 0x80, 0x00, 0x00] : List Nat).length = 4 := by
  have h := write_float_single_four_bytes 0x3FF0000000000000 "big" ⟨[2]⟩
    [0x3F, 0x80, 0x00, 0x00] (by decide)
  exact ⟨h.1, h.2⟩

/-! ## C2: `read_float` reads 4 bytes and fails on `double = true` -/

/-- C2 (amended): with at least 4 bytes remaining, `read_float` consumes
exactly 4 bytes regardless of the flags; with `double = false` it returns
them decoded as an IEEE-754 single-precision value (widened to the double
it hands back), while with `double = true` it fails with a
`struct.error` — the 4 bytes staying consumed — because 4 bytes cannot be
unpacked as a double. -/
theorem read_float_behavior (d : Bool) (e : String) (s : ParserState)
    (_he : e = "little" ∨ e = "big") (hlen : s.pos + 4 ≤ s.content.length) :
    Parser.read_float d e s =
      ((if d then .error .structError
        else .ok (singleToDoubleBits (bytesToNat (orientBytes e ((s.content.drop s.pos).take 4))))),
       { s with pos := s.pos + 4 }) := by
  have hl : ((s.content.drop s.pos).take 4).length = 4 := by
    simp only [List.length_take, List.length_drop]
    omega
  cases d <;>
    simp [Parser.read_float, Parser.read, float_from_bytes, hl]

theorem read_float_behavior_witness :
    ("little" = "little" ∨ ("little" : String) = "big") ∧
    (⟨[0, 0, 0x80, 0x3F], 0⟩ : ParserState).pos + 4 ≤
      (⟨[0, 0, 0x80, 0x3F], 0⟩ : ParserState).content.length ∧
    Parser.read_float false "little" ⟨[0, 0, 0x80, 0x3F], 0⟩ =
      (.ok 0x3FF0000000000000, ⟨[0, 0, 0x80, 0x3F], 4⟩) := by
  refine ⟨Or.inl rfl, by decide, ?_⟩
  have h := read_float_behavior false "little" ⟨[0, 0, 0x80, 0x3F], 0⟩ (Or.inl rfl) (by decide)
  rw [h]
  decide

/-! ## C3: which operations validate the endian argument -/

theorem float_from_bytes_error (data : List Nat) (byteorder : String) (double : Bool) (err : Err)
    (h : float_from_bytes data byteorder double = .error err) : err = .structError := by
  unfold float_from_bytes at h
  split_ifs at h <;> simp_all

/-- C3 (amended): only `read_int` and `write_int` validate the endian
string: for any value other than `"little"`/`"big"` they fail with the
`InvalidArgument` error before touching the file, leaving state and
content unchanged.  `read_float` and `write_float` never raise that error
(an unrecognized endian silently selects native byte order, and
`read_float` still consumes its bytes), and `read_fmt` rejects a bad
endian only once an integer token calls `read_int` — bytes consumed by
earlier tokens, such as the `b1` byte in format `"b1 u1"`, staying
consumed. -/
theorem endian_validation_int_only (e : String) (h1 : e ≠ "little") (h2 : e ≠ "big") :
    (∀ size sg s, Parser.read_int size sg e s = (.error .invalidByteorder, s)) ∧
    (∀ v size sg b, Builder.write_int v size sg e b = .error .invalidByteorder) ∧
    (∀ d s, (Parser.read_float d e s).1 ≠ .error .invalidByteorder) ∧
    (∀ v b, Builder.write_float v e b ≠ .error .invalidByteorder) ∧
    (∀ s : ParserState, s.pos + 1 ≤ s.content.length →
      Parser.read_fmt "b1 u1" e s = (.error .invalidByteorder, { s with pos := s.pos + 1 })) := by
  have hne : ¬(e = "little" ∨ e = "big") := by simp [h1, h2]
  refine ⟨?_, ?_, ?_, ?_, ?_⟩
  · intro size sg s
    simp [Parser.read_int, hne]
  · intro v size sg b
    simp [Builder.write_int, hne]
  · intro d s hc
    have h := congrArg Prod.fst (rfl : Parser.read_float d e s = Parser.read_float d e s)
    unfold Parser.read_float at hc
    simp only at hc
    exact absurd (float_from_bytes_error _ _ _ _ hc) (by simp)
  · intro v b hc
    unfold Builder.write_float at hc
    cases hf : float_to_bytes v e false with
    | ok bs => rw [hf] at hc; simp [Except.map] at hc
    | error err =>
      rw [hf] at hc
      simp only [Except.map] at hc
      cases hc
      unfold float_to_bytes at hf
      simp only [Bool.false_eq_true, if_false] at hf
      cases hd : doubleToSingleBits v with
      | ok w => rw [hd] at hf; cases hf
      | error err2 =>
        rw [hd] at hf
        cases hf
        exact absurd (doubleToSingleBits_error _ _ hd) (by simp)
  · intro s hs
    have htok : splitWs ("b1 u1".toList) = [['b', '1'], ['u', '1']] := by decide
    have hb : ((s.content.drop s.pos).take 1).length = 1 := by
      simp only [List.length_take, List.length_drop]
      omega
    simp [Parser.read_fmt, htok, Parser.read_fmt_go, Parser.read_fmt_tok, tokenSize,
      parseDecimal, parseDecimalGo, Parser.read, Parser.read_int, hne, hb, Except.map]

theorem endian_validation_int_only_witness :
    Parser.read_int 2 false "middle" ⟨[5, 6], 0⟩ = (.error .invalidByteorder, ⟨[5, 6], 0⟩) ∧
    Builder.write_int 300 1 false "middle" ⟨[]⟩ = .error .invalidByteorder ∧
    Parser.read_fmt "b1 u1" "middle" ⟨[7, 8], 0⟩ =
      (.error .invalidByteorder, ⟨[7, 8], 1⟩) := by
  have h := endian_validation_int_only "middle" (by decide) (by decide)
  exact ⟨h.1 2 false ⟨[5, 6], 0⟩, h.2.1 300 1 false ⟨[]⟩, h.2.2.2.2 ⟨[7, 8], 0⟩ (by decide)⟩

/-! ## C6: integer write/read round trip -/

theorem int_from_to_bytes (v : Int) (size : Nat) (sg : Bool) (e : String)
    (hrep : int_representable v size sg = true) :
    int_from_bytes
      (orientBytes e (natToBytesLE (if v < 0 then v + 2 ^ (8 * size) else v).toNat size)) e sg
      = v := by
  have hlen :
      (orientBytes e (natToBytesLE (if v < 0 then v + 2 ^ (8 * size) else v).toNat size)).length
        = size := by
    rw [orientBytes_length, natToBytesLE_length]
  simp only [int_from_bytes]
  rw [hlen, orientBytes_orientBytes, bytesToNat_natToBytesLE]
  cases sg with
  | false =>
    obtain ⟨h0, h1⟩ : 0 ≤ v ∧ v < (2 : Int) ^ (8 * size) := by
      simpa [int_representable] using hrep
    have hcast : ((2 ^ (8 * size) : Nat) : Int) = (2 : Int) ^ (8 * size) := by push_cast; ring
    rw [← hcast] at h1
    rw [if_neg (by omega : ¬ v < 0)]
    have hmlt : v.toNat < 2 ^ (8 * size) := by omega
    rw [Nat.mod_eq_of_lt hmlt]
    have hcond : ¬((false : Bool) = true ∧ 2 ^ (8 * size - 1) ≤ v.toNat) := by simp
    rw [if_neg hcond]
    omega
  | true =>
    by_cases hsz : size = 0
    · subst hsz
      have hv0 : v = 0 := by simpa [int_representable] using hrep
      subst hv0
      decide
    · obtain ⟨h0, h1⟩ :
          -((2 : Int) ^ (8 * size - 1)) ≤ v ∧ v < (2 : Int) ^ (8 * size - 1) := by
        simpa [int_representable, hsz] using hrep
      have hcast1 : ((2 ^ (8 * size - 1) : Nat) : Int) = (2 : Int) ^ (8 * size - 1) := by
        push_cast; ring
      have hcast2 : ((2 ^ (8 * size) : Nat) : Int) = (2 : Int) ^ (8 * size) := by push_cast; ring
      have hpow : (2 ^ (8 * size) : Nat) = 2 * 2 ^ (8 * size - 1) := by
        have h8 : 8 * size = 8 * size - 1 + 1 := by omega
        rw [h8, pow_succ, Nat.add_sub_cancel]
        ring
      rw [← hcast1] at h0 h1
      by_cases hv : v < 0
      · rw [if_pos hv, ← hcast2]
        have hlt : (v + ((2 ^ (8 * size) : Nat) : Int)).toNat < 2 ^ (8 * size) := by omega
        rw [Nat.mod_eq_of_lt hlt]
        have hge : 2 ^ (8 * size - 1) ≤ (v + ((2 ^ (8 * size) : Nat) : Int)).toNat := by omega
        rw [if_pos ⟨rfl, hge⟩]
        omega
      · rw [if_neg hv]
        have hlt : v.toNat < 2 ^ (8 * size) := by omega
        rw [Nat.mod_eq_of_lt hlt]
        have hnge : ¬ 2 ^ (8 * size - 1) ≤ v.toNat := by omega
        rw [if_neg (fun hc => hnge hc.2)]
        omega

/-- C6: for every integer representable in `size` bytes under the chosen
signed/unsigned interpretation and either byte order, `write_int`
followed by `read_int` on the written bytes (with matching parameters)
returns exactly the original value, consuming exactly `size` bytes. -/
theorem int_write_read_roundtrip (v : Int) (size : Nat) (sg : Bool) (e : String)
    (b : BuilderState) (he : e = "little" ∨ e = "big")
    (hrep : int_representable v size sg = true) :
    ∃ out : BuilderState, Builder.write_int v size sg e b = .ok out ∧
      Parser.read_int size sg e ⟨out.file, b.file.length⟩ =
        (.ok v, ⟨out.file, b.file.length + size⟩) := by
  have henc : int_to_bytes v size e sg =
      .ok (orientBytes e (natToBytesLE (if v < 0 then v + 2 ^ (8 * size) else v).toNat size)) := by
    simp [int_to_bytes, hrep]
  set bs := orientBytes e (natToBytesLE (if v < 0 then v + 2 ^ (8 * size) else v).toNat size)
    with hbs
  have hlen : bs.length = size := by rw [hbs, orientBytes_length, natToBytesLE_length]
  refine ⟨⟨b.file ++ bs⟩, ?_, ?_⟩
  · simp only [Builder.write_int]
    rw [if_pos he, henc]
    rfl
  · simp only [Parser.read_int]
    rw [if_pos he]
    simp only [Parser.read]
    have htake : ((b.file ++ bs).drop b.file.length).take size = bs := by
      rw [List.drop_left, ← hlen, List.take_length]
    simp only [htake, hlen]
    rw [hbs, int_from_to_bytes v size sg e hrep]

theorem int_write_read_roundtrip_witness :
    Parser.read_int 2 true "big" ⟨[255, 255], 0⟩ = (.ok (-1), ⟨[255, 255], 2⟩) ∧
    Builder.write_int (-1) 2 true "big" ⟨[]⟩ = .ok ⟨[255, 255]⟩ := by
  obtain ⟨out, h1, h2⟩ := int_write_read_roundtrip (-1) 2 true "big" ⟨[]⟩ (Or.inr rfl) (by decide)
  have hw : Builder.write_int (-1) 2 true "big" ⟨[]⟩ = .ok ⟨[255, 255]⟩ := by decide
  have hout : out = ⟨[255, 255]⟩ := Except.ok.inj (h1.symm.trans hw)
  subst hout
  exact ⟨h2, hw⟩

/-! ## C5: unrecognized format tokens -/

theorem read_fmt_go_invalid (e : String) (bad : List Char) (rest : List (List Char)) (c : Char)
    (hc : bad.head? = some c)
    (hb : c ≠ 'b') (hi : c ≠ 'i') (hu : c ≠ 'u') (hf : c ≠ 'f') (hd : c ≠ 'd')
    (hs : c ≠ 's') :
    ∀ (pre : List (List Char)) (s s1 : ParserState) (vs : List Value),
      Parser.read_fmt_go e pre s = (.ok vs, s1) →
      Parser.read_fmt_go e (pre ++ bad :: rest) s = (.error .invalidFormat, s1) := by
  intro pre
  induction pre with
  | nil =>
    intro s s1 vs hpre
    simp only [Parser.read_fmt_go, Prod.mk.injEq] at hpre
    obtain ⟨-, hs1⟩ := hpre
    subst hs1
    cases bad with
    | nil => simp at hc
    | cons c0 t =>
      obtain rfl : c0 = c := by simpa using hc
      simp [Parser.read_fmt_go, Parser.read_fmt_tok, hb, hi, hu, hf, hd, hs]
  | cons tok pre ih =>
    intro s s1 vs hpre
    rw [List.cons_append]
    simp only [Parser.read_fmt_go] at hpre ⊢
    rcases htok : Parser.read_fmt_tok tok e s with ⟨r, st⟩
    rw [htok] at hpre
    cases r with
    | error err => simp at hpre
    | ok v =>
      dsimp only at hpre ⊢
      rcases hgo : Parser.read_fmt_go e pre st with ⟨r2, st2⟩
      rw [hgo] at hpre
      cases r2 with
      | error err => simp at hpre
      | ok vs2 =>
        simp only [Prod.mk.injEq] at hpre
        obtain ⟨-, hs1⟩ := hpre
        rw [ih st s1 vs2 (by rw [hgo, hs1])]

/-- C5 (amended): when the tokens before the first offending token all
process successfully, `read_fmt` on a format string containing a token
whose leading character is not one of `b`, `i`, `u`, `f`, `d`, `s` fails
with the `InvalidFormat` error, and the bytes consumed by those earlier
tokens remain consumed — the cursor is left where they stopped, not
rolled back.  (An earlier token may instead fail first with its own
error, which is what the counterexample exhibits.) -/
theorem read_fmt_invalid_token_error (fmt e : String) (pre : List (List Char))
    (bad : List Char) (rest : List (List Char)) (c : Char) (s s1 : ParserState)
    (vs : List Value)
    (hsplit : splitWs fmt.toList = pre ++ bad :: rest)
    (hc : bad.head? = some c)
    (hb : c ≠ 'b') (hi : c ≠ 'i') (hu : c ≠ 'u') (hf : c ≠ 'f') (hd : c ≠ 'd')
    (hs : c ≠ 's')
    (hpre : Parser.read_fmt_go e pre s = (.ok vs, s1)) :
    Parser.read_fmt fmt e s = (.error .invalidFormat, s1) := by
  unfold Parser.read_fmt
  rw [hsplit]
  exact read_fmt_go_invalid e bad rest c hc hb hi hu hf hd hs pre s s1 vs hpre

theorem read_fmt_invalid_token_error_witness :
    Parser.read_fmt "u2 x" "little" ⟨[1, 0], 0⟩ = (.error .invalidFormat, ⟨[1, 0], 2⟩) :=
  read_fmt_invalid_token_error "u2 x" "little" [['u', '2']] ['x'] [] 'x'
    ⟨[1, 0], 0⟩ ⟨[1, 0], 2⟩ [.int 1] (by decide) rfl (by decide) (by decide) (by decide)
    (by decide) (by decide) (by decide) (by decide)

/-! ## C7: `read_until` with an absent delimiter never terminates -/

theorem read_until_stuck_abc3 :
    ∀ fuel, Parser.read_until_go [10] fuel [97, 98, 99] ⟨[97, 98, 99], 3⟩ = none := by
  intro fuel
  induction fuel with
  | zero => decide
  | succ n ih =>
    simp only [Parser.read_until_go]
    rw [if_neg (by decide)]
    exact ih

theorem read_until_stuck_ab2 :
    ∀ fuel, Parser.read_until_go [10] fuel [97, 98] ⟨[97, 98, 99], 2⟩ = none := by
  intro fuel
  cases fuel with
  | zero => decide
  | succ n =>
    simp only [Parser.read_until_go]
    rw [if_neg (by decide)]
    exact read_until_stuck_abc3 n

theorem read_until_stuck_a1 :
    ∀ fuel, Parser.read_until_go [10] fuel [97] ⟨[97, 98, 99], 1⟩ = none := by
  intro fuel
  cases fuel with
  | zero => decide
  | succ n =>
    simp only [Parser.read_until_go]
    rw [if_neg (by decide)]
    exact read_until_stuck_ab2 n

/-- C7 is wrong about the code: on content `b"abc"` with delimiter
`b"\n"`, which never appears, `read_until` never produces a result no
matter how many loop iterations it is allowed — once the cursor reaches
end-of-file every `read(1)` returns empty bytes, the accumulator stops
growing, the containment test stays false, and the `while` loop spins
forever instead of terminating. -/
theorem read_until_missing_delimiter_diverges :
    ∀ fuel, Parser.read_until [10] fuel ⟨[97, 98, 99], 0⟩ = none := by
  intro fuel
  exact read_until_stuck_a1 fuel

/-! ## C8: `read_until` returns up to the first delimiter occurrence -/

theorem containsSeq_iff (data src : List Nat) : containsSeq data src = true ↔ data <:+: src := by
  induction src with
  | nil => simp [containsSeq, List.isEmpty_iff, List.infix_nil]
  | cons b rest ih =>
    simp only [containsSeq, Bool.or_eq_true, ih, List.isPrefixOf_iff_prefix,
      List.infix_cons_iff]

theorem read_until_go_invariant (data : List Nat) (c : List Nat) (p i : Nat)
    (hne : data ≠ [])
    (hocc : data <+: (c.drop p).drop i)
    (hfirst : ∀ j, j < i → ¬ data <+: (c.drop p).drop j) :
    ∀ (k m : Nat), data.length ≤ m → m + k = i + data.length →
      Parser.read_until_go data k ((c.drop p).take m) ⟨c, p + m⟩ =
        some ((c.drop p).take (i + data.length), ⟨c, p + (i + data.length)⟩) := by
  have hdlen : 0 < data.length := List.length_pos.mpr hne
  have hRlen : i + data.length ≤ (c.drop p).length := by
    have h1 := hocc.length_le
    rw [List.length_drop] at h1
    omega
  have htake_eq : (c.drop p).take (i + data.length) = (c.drop p).take i ++ data := by
    rw [List.take_add]
    congr 1
    exact (List.prefix_iff_eq_take.mp hocc).symm
  intro k
  induction k with
  | zero =>
    intro m hm heq
    obtain rfl : m = i + data.length := by omega
    simp only [Parser.read_until_go]
    rw [if_pos]
    rw [containsSeq_iff]
    exact ⟨(c.drop p).take i, [], by rw [List.append_nil, ← htake_eq]⟩
  | succ n ih =>
    intro m hm heq
    have hmlt : m < i + data.length := by omega
    have hnotinf : ¬ data <:+: (c.drop p).take m := by
      intro hinf
      obtain ⟨t1, t2, heq2⟩ := hinf
      have hlenm : ((c.drop p).take m).length = m := by
        rw [List.length_take]
        omega
      have hj : t1.length + data.length + t2.length = m := by
        have h4 := congrArg List.length heq2
        simpa [hlenm, Nat.add_assoc] using h4
      have hpref : data <+: ((c.drop p).take m).drop t1.length := by
        rw [← heq2, List.append_assoc, List.drop_left]
        exact ⟨t2, rfl⟩
      have hpref2 : data <+: (c.drop p).drop t1.length := by
        rw [List.drop_take] at hpref
        exact hpref.trans (List.take_prefix _ _)
      exact hfirst t1.length (by omega) hpref2
    simp only [Parser.read_until_go]
    rw [if_neg (show ¬ containsSeq data ((c.drop p).take m) = true by
      rw [containsSeq_iff]; exact hnotinf)]
    have hmR : m < (c.drop p).length := by omega
    have hread : Parser.read (some 1) ⟨c, p + m⟩ =
        ([(c.drop p)[m]], ⟨c, p + m + 1⟩) := by
      simp only [Parser.read]
      have h1 : (c.drop p).drop m = c.drop (p + m) := by rw [List.drop_drop]
      rw [← h1, List.drop_eq_getElem_cons hmR]
      simp
    rw [hread]
    have hsrc : (c.drop p).take m ++ [(c.drop p)[m]] = (c.drop p).take (m + 1) := by
      rw [List.take_succ, List.getElem?_eq_getElem hmR]
      rfl
    dsimp only
    rw [hsrc, Nat.add_assoc]
    exact ih (m + 1) (by omega) (by omega)

/-- C8: when the nonempty delimiter first occurs at offset `i` of the
remaining content, `read_until` returns exactly the bytes from the
cursor up to and including that first occurrence — the prefix of length
`i + data.length` — leaving the cursor right after it.  In particular
`read_until b"\n"` on remaining content `b"abc\ndef"` returns
`b"abc\n"` (the witness). -/
theorem read_until_first_occurrence (data : List Nat) (s : ParserState) (i : Nat)
    (hne : data ≠ [])
    (hocc : data.isPrefixOf ((s.content.drop s.pos).drop i) = true)
    (hfirst : ∀ j, j < i → data.isPrefixOf ((s.content.drop s.pos).drop j) = false) :
    Parser.read_until data i s =
      some ((s.content.drop s.pos).take (i + data.length),
        ⟨s.content, s.pos + (i + data.length)⟩) := by
  rw [List.isPrefixOf_iff_prefix] at hocc
  have hfirst2 : ∀ j, j < i → ¬ data <+: (s.content.drop s.pos).drop j := by
    intro j hj hc
    have h5 : data.isPrefixOf ((s.content.drop s.pos).drop j) = true :=
      List.isPrefixOf_iff_prefix.mpr hc
    rw [hfirst j hj] at h5
    cases h5
  have hdlen : 0 < data.length := List.length_pos.mpr hne
  have hRlen : i + data.length ≤ (s.content.drop s.pos).length := by
    have h1 := hocc.length_le
    rw [List.length_drop] at h1
    omega
  have hinit : Parser.read (some data.length) s =
      ((s.content.drop s.pos).take data.length, ⟨s.content, s.pos + data.length⟩) := by
    simp only [Parser.read]
    have h6 : ((s.content.drop s.pos).take data.length).length = data.length := by
      rw [List.length_take]
      omega
    rw [h6]
  unfold Parser.read_until
  rw [hinit]
  exact read_until_go_invariant data s.content s.pos i hne hocc hfirst2 i data.length
    le_rfl (by omega)

theorem read_until_first_occurrence_witness :
    Parser.read_until [10] 3 ⟨[97, 98, 99, 10, 100, 101, 102], 0⟩ =
      some ([97, 98, 99, 10], ⟨[97, 98, 99, 10, 100, 101, 102], 4⟩) := by
  have h := read_until_first_occurrence [10] ⟨[97, 98, 99, 10, 100, 101, 102], 0⟩ 3
    (by decide) (by decide) (by decide)
  exact h

/-! ## C9: float codec round trip -/

theorem bitlenGo_zero : ∀ fuel, bitlenGo fuel 0 = 0 := by
  intro fuel
  cases fuel <;> simp [bitlenGo]

theorem bitlenGo_bounds : ∀ (fuel n : Nat), n ≠ 0 → n < 2 ^ fuel →
    2 ^ (bitlenGo fuel n - 1) ≤ n ∧ n < 2 ^ (bitlenGo fuel n) := by
  intro fuel
  induction fuel with
  | zero =>
    intro n h0 h1
    rw [pow_zero] at h1
    omega
  | succ f ih =>
    intro n h0 h1
    simp only [bitlenGo, if_neg h0]
    by_cases h2 : n / 2 = 0
    · have hn1 : n = 1 := by omega
      subst hn1
      norm_num [bitlenGo_zero]
    · have h3 : n / 2 < 2 ^ f := by
        rw [pow_succ] at h1
        omega
      obtain ⟨ha, hb⟩ := ih (n / 2) h2 h3
      have hm1 : 1 ≤ bitlenGo f (n / 2) := by
        by_contra h4
        push_neg at h4
        have h5 : bitlenGo f (n / 2) = 0 := by omega
        rw [h5, pow_zero] at hb
        omega
      constructor
      · have h6 : bitlenGo f (n / 2) + 1 - 1 = bitlenGo f (n / 2) := by omega
        rw [h6]
        have h7 : 2 ^ (bitlenGo f (n / 2) - 1 + 1) = 2 ^ (bitlenGo f (n / 2) - 1) * 2 :=
          pow_succ 2 _
        have h8 : bitlenGo f (n / 2) - 1 + 1 = bitlenGo f (n / 2) := by omega
        rw [h8] at h7
        omega
      · rw [pow_succ]
        omega

theorem bitlen_bounds (n : Nat) (h0 : n ≠ 0) (h1 : n < 2 ^ 64) :
    2 ^ (bitlen n - 1) ≤ n ∧ n < 2 ^ (bitlen n) := bitlenGo_bounds 64 n h0 h1

theorem rneShift_le (n k : Nat) : rneShift n k ≤ n / 2 ^ k + 1 := by
  simp only [rneShift]
  split_ifs with h1 h2 h3 h4
  · subst h1
    rw [pow_zero]
    omega
  all_goals omega

theorem sigmul_lt (sig L : Nat) (h : sig < 2 ^ L) (hL : L ≤ 24) :
    sig * 2 ^ (24 - L) < 2 ^ 24 := by
  have h3 : 2 ^ L * 2 ^ (24 - L) = 2 ^ 24 := by
    rw [← pow_add]
    congr 1
    omega
  have h4 : sig * 2 ^ (24 - L) < 2 ^ L * 2 ^ (24 - L) :=
    mul_lt_mul_of_pos_right h (pow_pos (by norm_num) _)
  omega

theorem rneShift_lt24 (sig L : Nat) (h : sig < 2 ^ L) (hL : ¬ L ≤ 24) :
    rneShift sig (L - 24) ≤ 2 ^ 24 := by
  have hpos : 0 < 2 ^ (L - 24) := pow_pos (by norm_num) _
  have h6 : (2 : Nat) ^ L = 2 ^ 24 * 2 ^ (L - 24) := by
    rw [← pow_add]
    congr 1
    omega
  have h4 : sig / 2 ^ (L - 24) < 2 ^ 24 := by
    rw [Nat.div_lt_iff_lt_mul hpos, ← h6]
    exact h
  have h5 := rneShift_le sig (L - 24)
  omega

set_option maxRecDepth 4000 in
theorem doubleToSingleBits_lt (w u : Nat) (h : doubleToSingleBits w = .ok u) : u < 2 ^ 32 := by
  have p22 : (2 : Nat) ^ 22 = 4194304 := by norm_num
  have p23 : (2 : Nat) ^ 23 = 8388608 := by norm_num
  have p24 : (2 : Nat) ^ 24 = 16777216 := by norm_num
  have p31 : (2 : Nat) ^ 31 = 2147483648 := by norm_num
  have p32 : (2 : Nat) ^ 32 = 4294967296 := by norm_num
  have p52 : (2 : Nat) ^ 52 = 4503599627370496 := by norm_num
  have p29 : (2 : Nat) ^ 29 = 536870912 := by norm_num
  have p64 : (2 : Nat) ^ 64 = 18446744073709551616 := by norm_num
  have hs1 : w / 2 ^ 63 % 2 ≤ 1 := Nat.le_of_lt_succ (Nat.mod_lt _ (by norm_num))
  have hMlt : w % 2 ^ 52 < 2 ^ 52 := Nat.mod_lt _ (by norm_num)
  have hMdiv : w % 2 ^ 52 / 2 ^ 29 < 2 ^ 23 := by
    rw [Nat.div_lt_iff_lt_mul (by norm_num : (0 : Nat) < 2 ^ 29)]
    omega
  simp only [doubleToSingleBits] at h
  split_ifs at h <;>
    first
      | exact Except.noConfusion h
      | (have hu := Except.ok.inj h; omega)
      | (have hu := Except.ok.inj h
         first
           | (have hb2 := (bitlen_bounds (w % 2 ^ 52) (by assumption) (by omega)).2
              first
                | (have hm := sigmul_lt (w % 2 ^ 52) (bitlen (w % 2 ^ 52)) hb2
                      (by assumption)
                   omega)
                | (have hm := rneShift_lt24 (w % 2 ^ 52) (bitlen (w % 2 ^ 52)) hb2
                      (by assumption)
                   omega))
           | (have hb2 := (bitlen_bounds (2 ^ 52 + w % 2 ^ 52) (by omega) (by omega)).2
              first
                | (have hm := sigmul_lt (2 ^ 52 + w % 2 ^ 52)
                      (bitlen (2 ^ 52 + w % 2 ^ 52)) hb2 (by assumption)
                   omega)
                | (have hm := rneShift_lt24 (2 ^ 52 + w % 2 ^ 52)
                      (bitlen (2 ^ 52 + w % 2 ^ 52)) hb2 (by assumption)
                   omega)))

/-- C9 (amended): for a finite double `v` and either byte order, packing
at double precision and unpacking recovers `v` bit-exactly; at single
precision, when narrowing succeeds the round trip returns exactly the
single-precision rounding of `v` widened back to a double, and when the
rounded magnitude leaves single range `float_to_bytes` instead fails with
the packing `OverflowError`, returning no value at all. -/
theorem float_bytes_roundtrip (v : Nat) (e : String)
    (hv : v < 2 ^ 64) (_he : e = "little" ∨ e = "big")
    (_hfin : v / 2 ^ 52 % 2 ^ 11 ≠ 2047) :
    ((float_to_bytes v e true).bind fun bs => float_from_bytes bs e true) = .ok v ∧
    (∀ w, doubleToSingleBits v = .ok w →
      ((float_to_bytes v e false).bind fun bs => float_from_bytes bs e false) =
        .ok (singleToDoubleBits w)) ∧
    (∀ err, doubleToSingleBits v = .error err → float_to_bytes v e false = .error err) := by
  refine ⟨?_, ?_, ?_⟩
  · have hlen : (orientBytes e (natToBytesLE v 8)).length = 8 := by
      rw [orientBytes_length, natToBytesLE_length]
    simp only [float_to_bytes, if_true, Except.bind, float_from_bytes, hlen, if_pos rfl]
    rw [orientBytes_orientBytes, bytesToNat_natToBytesLE]
    rw [Nat.mod_eq_of_lt]
    exact hv
  · intro w hw
    have hwlt := doubleToSingleBits_lt v w hw
    have hlen : (orientBytes e (natToBytesLE w 4)).length = 4 := by
      rw [orientBytes_length, natToBytesLE_length]
    simp only [float_to_bytes, Bool.false_eq_true, if_false, hw, Except.bind,
      float_from_bytes, hlen]
    rw [orientBytes_orientBytes, bytesToNat_natToBytesLE, Nat.mod_eq_of_lt hwlt]
    simp
  · intro err herr
    simp only [float_to_bytes, Bool.false_eq_true, if_false, herr]

theorem float_bytes_roundtrip_witness :
    ((float_to_bytes 0x3FF0000000000000 "little" true).bind
        fun bs => float_from_bytes bs "little" true) = .ok 0x3FF0000000000000 ∧
    ((float_to_bytes 0x3FF0000000000000 "little" false).bind
        fun bs => float_from_bytes bs "little" false) = .ok (singleToDoubleBits 1065353216) := by
  have h := float_bytes_roundtrip 0x3FF0000000000000 "little" (by norm_num) (Or.inl rfl)
    (by decide)
  exact ⟨h.1, h.2.1 1065353216 (by decide)⟩

/-! ## C10: `s` tokens decode UTF-8 independently of the endian argument -/

/-- C10: an `s<N>` token of `read_fmt` is processed identically under any
two endian arguments, and its result is exactly the next `N` bytes
decoded as UTF-8 (failing with a decode error on invalid UTF-8); the
token dispatch offers no way to select any other encoding. -/
theorem read_fmt_s_token_utf8 (cs t : List Char) (n : Nat) (e1 e2 : String) (s : ParserState)
    (hcs : cs = 's' :: t) (hn : tokenSize t = .ok n) :
    Parser.read_fmt_tok cs e1 s = Parser.read_fmt_tok cs e2 s ∧
    Parser.read_fmt_tok cs e1 s =
      ((match utf8Decode ((s.content.drop s.pos).take n) with
        | some str => Except.ok (Value.str str)
        | none => Except.error Err.unicodeError),
       { s with pos := s.pos + ((s.content.drop s.pos).take n).length }) := by
  subst hcs
  refine ⟨by simp [Parser.read_fmt_tok, hn], ?_⟩
  simp only [Parser.read_fmt_tok, if_true, hn]
  simp only [Parser.read_str, Parser.read]
  rcases hdec : utf8Decode ((s.content.drop s.pos).take n) with _ | str <;>
    simp [hdec, Except.map]

theorem read_fmt_s_token_utf8_witness :
    Parser.read_fmt_tok ['s', '2'] "little" ⟨[104, 105], 0⟩ =
      Parser.read_fmt_tok ['s', '2'] "big" ⟨[104, 105], 0⟩ ∧
    Parser.read_fmt_tok ['s', '2'] "little" ⟨[104, 105], 0⟩ =
      (.ok (.str "hi"), ⟨[104, 105], 2⟩) := by
  have h := read_fmt_s_token_utf8 ['s', '2'] ['2'] 2 "little" "big" ⟨[104, 105], 0⟩ rfl
    (by decide)
  refine ⟨h.1, ?_⟩
  rw [h.2]
  decide

end FileFormat
